import Mathlib

/-!
# Interactive shell: tokenizer, execution strategies and dispatcher

A shallow embedding of `src/main.c`.

* C strings are lists of characters (`Str`); a `char *` that may be `NULL` is an `Option Str`.
* The token arrays `commands` / `args` have `MAX_ARGS` slots.  They are modelled by the list
  of slots written so far, the log of the indices that were stored to, and a flag that is
  cleared by a store outside the array.  Such a store is undefined behaviour in C: a function
  whose array has been overrun ends with the outcome `undefined`, and nothing is said about
  what the program does from there on.
* A process is described by the sequence of system calls it issues (`Event`) and by the way
  control leaves the C function (`Outcome`).  The return values of the operating system are
  supplied by an `OS` record, so that every function is an ordinary executable Lean function.
-/

namespace Shell

/-- A C string: the characters before the terminating zero byte. -/
abbrev Str := List Char

/-- The constant `MAX_CMD_LEN` of `main.c`. -/
def MAX_CMD_LEN : Nat := 1024

/-- The constant `MAX_ARGS` of `main.c`. -/
def MAX_ARGS : Nat := 100

/-! ## `strsep` -/

/-- The scan done by `strsep` on a non-null string: the token runs up to the first character
that belongs to the delimiter *set*; the remainder starts right after that character, and is
`NULL` when no delimiter character was found. -/
def strsepScan (delim : Str) : Str → Str × Option Str
  | [] => ([], none)
  | c :: cs =>
    if c ∈ delim then ([], some cs)
    else (c :: (strsepScan delim cs).1, (strsepScan delim cs).2)

/-- The library call `strsep(&stringp, delim)`: returns the token (or `NULL`) and the new value
of `stringp`. -/
def strsep (stringp : Option Str) (delim : Str) : Option Str × Option Str :=
  match stringp with
  | none => (none, none)
  | some s => (some (strsepScan delim s).1, (strsepScan delim s).2)

/-- Number of bytes still reachable through `stringp` (0 for `NULL`). -/
def remaining : Option Str → Nat
  | none => 0
  | some s => s.length + 1

/-! ## Token arrays -/

/-- A token array (`char *commands[MAX_ARGS]`, `char *args[MAX_ARGS]`): `slots` lists the
contents of the slots `0, 1, …` written so far (`none` is `NULL`), `writes` logs the index of
every store, in program order, and `inBounds` tells whether every store so far fell inside the
`MAX_ARGS` slots of the array. -/
structure TokenArray where
  slots : List (Option Str)
  writes : List Nat
  inBounds : Bool
deriving DecidableEq, Repr

/-- The array before the first store. -/
def TokenArray.fresh : TokenArray := ⟨[], [], true⟩

/-- The store `a[i] = v` into an array of `MAX_ARGS` slots.  For an index below `MAX_ARGS`
the store overwrites slot `i` or fills the next slot (the loops only store at an index that
is at most the number of slots written so far).  An index from `MAX_ARGS` on is outside the
array: the slots are left as they are and the array is marked as overrun. -/
def TokenArray.store (a : TokenArray) (i : Nat) (v : Option Str) : TokenArray :=
  if i < MAX_ARGS then
    ⟨if i < a.slots.length then a.slots.set i v else a.slots ++ [v], a.writes ++ [i],
      a.inBounds⟩
  else ⟨a.slots, a.writes ++ [i], false⟩

/-- The entries a caller sees with `for (i = 0; a[i] != NULL; i++)`. -/
def untilNull : List (Option Str) → List Str
  | some s :: rest => s :: untilNull rest
  | _ => []

/-- The loop
`while ((commands[i++] = strsep(&input, delimiter)) != NULL) { if (commands[i-1][0] == '\0') i--; }`
shared by `parseInput` and `executeCommand`; returns the final `i` and the array. -/
def parseLoop (delim : Str) (stringp : Option Str) (i : Nat) (a : TokenArray) :
    Nat × TokenArray :=
  match h : strsep stringp delim with
  | (none, _) => (i + 1, a.store i none)
  | (some tok, rest) =>
    if tok = [] then parseLoop delim rest i (a.store i (some tok))
    else parseLoop delim rest (i + 1) (a.store i (some tok))
termination_by remaining stringp
decreasing_by
  all_goals
    have scan : ∀ s : Str, remaining (strsepScan delim s).2 < remaining (some s) := by
      intro s
      induction s with
      | nil => simp [strsepScan, remaining]
      | cons c cs ih =>
        by_cases hc : c ∈ delim
        · simp [strsepScan, hc, remaining]
        · simp only [strsepScan, hc, if_false]
          simp only [remaining] at ih ⊢
          simp only [List.length_cons]
          omega
    cases stringp with
    | none => simp [strsep] at h
    | some s =>
      simp only [strsep, Prod.mk.injEq] at h
      rw [← h.2]
      exact scan s

/-- The function `parseInput(input, commands, delimiter)`: the loop, then `commands[i] = NULL`. -/
def parseInput (input : Str) (delimiter : Str) : TokenArray :=
  (parseLoop delimiter (some input) 0 TokenArray.fresh).2.store
    (parseLoop delimiter (some input) 0 TokenArray.fresh).1 none

/-! ## A structural description of the split -/

/-- All maximal runs of characters outside the delimiter set, empty runs included. -/
def pieces (delim : Str) : Str → List Str
  | [] => [[]]
  | c :: cs =>
    if c ∈ delim then [] :: pieces delim cs
    else match pieces delim cs with
      | p :: ps => (c :: p) :: ps
      | [] => [[c]]

/-- The runs still to come when `stringp` has the given value (none after `NULL`). -/
def restPieces (delim : Str) : Option Str → List Str
  | none => []
  | some r => pieces delim r

/-- A run that the loop keeps: its first byte is not the terminating zero. -/
def isToken (p : Str) : Bool := !p.isEmpty

/-- The non-empty runs, in order. -/
def tokens (delim : Str) (s : Str) : List Str :=
  (pieces delim s).filter isToken

/-- The indices stored by the loop when it starts at index `i` and meets the given runs; the
last entry is the store of the `NULL` returned by the final `strsep`. -/
def loopWrites : Nat → List Str → List Nat
  | i, [] => [i]
  | i, p :: ps => i :: loopWrites (if p = [] then i else i + 1) ps

/-! ## Processes -/

/-- The three kinds of value `fork()` can return: negative, zero, positive. -/
inductive ForkResult
  | failed
  | child
  | parent
deriving DecidableEq, Repr

/-- Flags passed to `open`. -/
inductive OpenFlag
  | O_WRONLY
  | O_CREAT
  | O_TRUNC
deriving DecidableEq, Repr

/-- System and library calls issued by a process, in program order. -/
inductive Event
  | fork (result : ForkResult)
  | wait
  | execvp (file : Str) (argv : List Str)
  | perror (msg : Str)
  | printf (msg : Str)
  | exit (status : Nat)
  | openFile (path : Str) (flags : List OpenFlag) (mode : Nat) (ok : Bool)
  | dup2Stdout
  | close
deriving DecidableEq, Repr

/-- How control leaves a C function: it returns to its caller, the process terminates with a
status, the process image has been replaced by a successful `execvp`, or a store outside an
array has made the behaviour of the program undefined. -/
inductive Outcome
  | returned
  | exited (status : Nat)
  | replaced
  | undefined
deriving DecidableEq, Repr

/-- The answers of the operating system along one execution path.  `fork k` is the value
returned by the `k`-th call of `fork` on the path (after an answer `child` the path continues
in the new process); `execvp` tells whether the image replacement succeeds; `openFile`
whether `open` returns a valid descriptor. -/
structure OS where
  fork : Nat → ForkResult
  execvp : Str → List Str → Bool
  openFile : Str → Bool
  cwd : Str

/-- The observable part of running a piece of code: the events issued, the number of `fork`
calls made on the path so far, and the outcome. -/
structure Run where
  trace : List Event
  forks : Nat
  outcome : Outcome
deriving DecidableEq, Repr

/-- Events issued before a run. -/
def Run.after (pre : List Event) (r : Run) : Run :=
  ⟨pre ++ r.trace, r.forks, r.outcome⟩

/-- Sequential composition: the continuation runs only when the first part returned. -/
def Run.andThen (r : Run) (k : Nat → Run) : Run :=
  match r.outcome with
  | .returned => Run.after r.trace (k r.forks)
  | _ => r

/-- The call `exit(status)`. -/
def exitWith (status : Nat) (n : Nat) : Run :=
  ⟨[.exit status], n, .exited status⟩

/-- The function `executeCommand(command)`, started when `n` calls of `fork` have been made.
The argument loop is the loop of `parseInput` with the delimiter `" "`, run on the local
array `args[MAX_ARGS]`; when it overruns the array the behaviour is undefined. -/
def executeCommand (os : OS) (n : Nat) (command : Str) : Run :=
  let args := parseInput command " ".toList
  if args.inBounds then
    match args.slots.getD 0 none with
    | none => ⟨[], n, .returned⟩
    | some file =>
      match os.fork n with
      | .failed => ⟨[.fork .failed, .perror "Fork failed".toList, .exit 1], n + 1, .exited 1⟩
      | .child =>
        if os.execvp file (untilNull args.slots) then
          ⟨[.fork .child, .execvp file (untilNull args.slots)], n + 1, .replaced⟩
        else
          ⟨[.fork .child, .execvp file (untilNull args.slots),
            .perror "Shell: Incorrect command".toList, .exit 1], n + 1, .exited 1⟩
      | .parent => ⟨[.fork .parent, .wait], n + 1, .returned⟩
  else ⟨[], n, .undefined⟩

/-- The first loop of `executeParallelCommands`, from the slot at the head of the list on. -/
def parallelSpawn (os : OS) : Nat → List (Option Str) → Run
  | n, some c :: rest =>
    if c.length = 0 then parallelSpawn os n rest
    else
      match os.fork n with
      | .child =>
        Run.after [.fork .child] ((executeCommand os (n + 1) c).andThen (exitWith 0))
      | r => Run.after [.fork r] (parallelSpawn os (n + 1) rest)
  | n, _ => ⟨[], n, .returned⟩

/-- The second loop of `executeParallelCommands`: one `wait(NULL)` per non-null slot. -/
def parallelWait : List (Option Str) → List Event
  | some _ :: rest => .wait :: parallelWait rest
  | _ => []

/-- The function `executeParallelCommands(input)`; undefined when `parseInput` overruns the
local array `commands[MAX_ARGS]`. -/
def executeParallelCommands (os : OS) (n : Nat) (input : Str) : Run :=
  let commands := parseInput input "&&".toList
  if commands.inBounds then
    (parallelSpawn os n commands.slots).andThen
      (fun m => ⟨parallelWait commands.slots, m, .returned⟩)
  else ⟨[], n, .undefined⟩

/-- The loop of `executeSequentialCommands`. -/
def sequentialLoop (os : OS) : Nat → List (Option Str) → Run
  | n, some c :: rest =>
    if c.length = 0 then sequentialLoop os n rest
    else (executeCommand os n c).andThen (fun m => sequentialLoop os m rest)
  | n, _ => ⟨[], n, .returned⟩

/-- The function `executeSequentialCommands(input)`; undefined when `parseInput` overruns the
local array `commands[MAX_ARGS]`. -/
def executeSequentialCommands (os : OS) (n : Nat) (input : Str) : Run :=
  let commands := parseInput input "##".toList
  if commands.inBounds then sequentialLoop os n commands.slots
  else ⟨[], n, .undefined⟩

/-- The function `executeCommandRedirection(input)`; undefined when `parseInput` overruns
the local array `commands[MAX_ARGS]`. -/
def executeCommandRedirection (os : OS) (n : Nat) (input : Str) : Run :=
  let commands := parseInput input ">".toList
  if commands.inBounds then
    match commands.slots.getD 0 none, commands.slots.getD 1 none with
    | some command, some output_file =>
      match os.fork n with
      | .child =>
        if os.openFile output_file then
          Run.after
            [.fork .child,
             .openFile output_file [.O_WRONLY, .O_CREAT, .O_TRUNC] 0o644 true,
             .dup2Stdout, .close]
            ((executeCommand os (n + 1) command).andThen (exitWith 0))
        else
          ⟨[.fork .child,
            .openFile output_file [.O_WRONLY, .O_CREAT, .O_TRUNC] 0o644 false,
            .perror "Failed to open file".toList, .exit 1], n + 1, .exited 1⟩
      | r => ⟨[.fork r, .wait], n + 1, .returned⟩
    | _, _ => ⟨[.printf "Shell: Incorrect command\n".toList], n, .returned⟩
  else ⟨[], n, .undefined⟩

/-- The library call `strstr(haystack, needle)`: the suffix of `haystack` starting at the
first occurrence of `needle`, or `NULL`. -/
def strstr : Str → Str → Option Str
  | [], needle => if needle = [] then some [] else none
  | c :: cs, needle =>
    if needle.isPrefixOf (c :: cs) then some (c :: cs) else strstr cs needle

/-- The mode selection at the end of the loop body of `main` (lines 178-193). -/
def dispatch (os : OS) (n : Nat) (input : Str) : Run :=
  if strstr input "&&".toList ≠ none then executeParallelCommands os n input
  else if strstr input "##".toList ≠ none then executeSequentialCommands os n input
  else if strstr input ">".toList ≠ none then executeCommandRedirection os n input
  else executeCommand os n input

/-- The scan of `fgets`: at most `room` characters are stored, and reading stops after a
newline. Returns the stored characters and the unread rest of the stream. -/
def fgetsScan : Nat → Str → Str × Str
  | 0, s => ([], s)
  | _ + 1, [] => ([], [])
  | room + 1, c :: cs =>
    if c = '\n' then ([c], cs)
    else (c :: (fgetsScan room cs).1, (fgetsScan room cs).2)

/-- The library call `fgets(buf, size, stdin)`: `NULL` at end of input. -/
def fgets (size : Nat) (stream : Str) : Option Str × Str :=
  if stream = [] then (none, [])
  else (some (fgetsScan (size - 1) stream).1, (fgetsScan (size - 1) stream).2)

/-- The statement `input[strcspn(input, "\n")] = 0`. -/
def stripNewline (buf : Str) : Str :=
  buf.takeWhile (fun c => c ≠ '\n')

/-- One iteration of the loop of `main` on the given standard input.  The outcome `returned`
means that the loop goes on to its next iteration; `break` followed by `return 0` is the
outcome `exited 0`. -/
def mainIteration (os : OS) (n : Nat) (stdin : Str) : Run :=
  Run.after [.printf (os.cwd ++ "$ ".toList)]
    (match (fgets MAX_CMD_LEN stdin).1 with
     | none => ⟨[], n, .returned⟩
     | some buf =>
       if stripNewline buf = "exit".toList then
         ⟨[.printf "Exiting shell...\n".toList], n, .exited 0⟩
       else if (stripNewline buf).length = 0 then ⟨[], n, .returned⟩
       else dispatch os n (stripNewline buf))

/-- The body of `executeCommand` once the argument vector is known. -/
def runArgs (os : OS) (n : Nat) : List Str → Run
  | [] => ⟨[], n, .returned⟩
  | file :: rest =>
    match os.fork n with
    | .failed => ⟨[.fork .failed, .perror "Fork failed".toList, .exit 1], n + 1, .exited 1⟩
    | .child =>
      if os.execvp file (file :: rest) then
        ⟨[.fork .child, .execvp file (file :: rest)], n + 1, .replaced⟩
      else
        ⟨[.fork .child, .execvp file (file :: rest),
          .perror "Shell: Incorrect command".toList, .exit 1], n + 1, .exited 1⟩
    | .parent => ⟨[.fork .parent, .wait], n + 1, .returned⟩

/-- The argument vector `executeCommand` builds for a command unit. -/
def argv (unit : Str) : List Str :=
  untilNull (parseInput unit " ".toList).slots

/-- An operating system in which every `fork` succeeds and is observed from the parent. -/
def shellOS : OS := ⟨fun _ => .parent, fun _ _ => true, fun _ => true, "/home".toList⟩

/-- An execution path that follows the new process at every `fork`. -/
def childOS : OS := ⟨fun _ => .child, fun _ _ => true, fun _ => true, "/home".toList⟩

/-- An operating system in which process creation fails. -/
def forkFailOS : OS := ⟨fun _ => .failed, fun _ _ => true, fun _ => true, "/home".toList⟩

/-- What a freshly forked child of `executeCommand` does with the argument vector `a`. -/
def childExec (os : OS) (a : List Str) : List Event :=
  [.fork .child, .execvp (a.headD []) a] ++
    (if os.execvp (a.headD []) a then []
     else [.perror "Shell: Incorrect command".toList, .exit 1])

/-- An execution path that stays in the shell for the first `fork` and follows the child
created by the second one. -/
def secondChildOS : OS :=
  ⟨fun k => if k = 1 then .child else .parent, fun _ _ => true, fun _ => true, "/home".toList⟩

/-- The argument vectors of the command units of a `##` line, in split order, the units
without any argument left out. -/
def sequentialArgvs (input : Str) : List (List Str) :=
  ((untilNull (parseInput input "##".toList).slots).map argv).filter (fun a => !a.isEmpty)

/-- The loop of a split stays inside the array and so does the final `NULL` store: the highest
index stored, the number of non-empty tokens plus one, is below `MAX_ARGS`, that is, the
split keeps at most 98 tokens. -/
abbrev fits (delim s : Str) : Prop :=
  (tokens delim s).length + 1 < MAX_ARGS

/-- No array of the shell process is overrun while the line is handled: the split made by
the strategy that `main` selects keeps at most 98 tokens, and so does the argument split of
every command unit that the shell process itself hands to `executeCommand`. -/
def lineFits (line : Str) : Prop :=
  ("&&".toList <:+: line → fits "&&".toList line) ∧
  (¬ "&&".toList <:+: line → "##".toList <:+: line →
    fits "##".toList line ∧ ∀ u ∈ tokens "##".toList line, fits " ".toList u) ∧
  (¬ "&&".toList <:+: line → ¬ "##".toList <:+: line → ">".toList <:+: line →
    fits ">".toList line) ∧
  (¬ "&&".toList <:+: line → ¬ "##".toList <:+: line → ¬ ">".toList <:+: line →
    fits " ".toList line)

/-- A line of `k` one-letter units separated by `sep`. -/
def unitsLine (k : Nat) (sep : Str) : Str :=
  (List.replicate (k - 1) ("a".toList ++ sep)).flatten ++ "a".toList

/-- A command line with 99 one-letter arguments separated by single spaces (197 bytes). -/
def manyArgs : Str :=
  (List.replicate 98 "a ".toList).flatten ++ "a".toList

/-- The events with which `executeCommand` ends when `fork` fails in the calling process. -/
def forkFailure : List Event :=
  [.fork .failed, .perror "Fork failed".toList, .exit 1]

/-- The two ways a run of the shell process can end: it returns without any failed `fork`, or
it ends with the fork-failure sequence and exit status 1. -/
def ReturnsOrForkExit (r : Run) : Prop :=
  (r.outcome = .returned ∧ Event.fork .failed ∉ r.trace) ∨
  (r.outcome = .exited 1 ∧ forkFailure <:+ r.trace)

/-! ## The tokenizer loop computes the non-empty runs -/

theorem store_writes (a : TokenArray) (i : Nat) (v : Option Str) :
    (a.store i v).writes = a.writes ++ [i] := by
  unfold TokenArray.store
  split <;> rfl

theorem store_inBounds (a : TokenArray) (i : Nat) (v : Option Str) :
    (a.store i v).inBounds = (a.inBounds && decide (i < MAX_ARGS)) := by
  unfold TokenArray.store
  by_cases h : i < MAX_ARGS
  · simp [h]
  · simp [h]

theorem store_slots (a : TokenArray) (i : Nat) (v : Option Str) (h0 : i < MAX_ARGS)
    (h1 : i ≤ a.slots.length) (h2 : a.slots.length ≤ i + 1) :
    (a.store i v).slots = a.slots.take i ++ [v] := by
  unfold TokenArray.store
  rw [if_pos h0]
  by_cases h : i < a.slots.length
  · have hlen : a.slots.length = i + 1 := by omega
    simp only [h, if_true]
    apply List.ext_getElem
    · simp [hlen]
    · intro k hk1 hk2
      simp only [List.length_set] at hk1
      by_cases hk : k = i
      · subst hk
        simp [List.getElem_append_right]
      · have hlt : k < i := by omega
        rw [List.getElem_set_ne (by omega)]
        rw [List.getElem_append_left (by simp; omega)]
        simp
  · have hlen : a.slots.length = i := by omega
    simp only [h, if_false]
    rw [← hlen, List.take_length]

theorem store_slots_outside (a : TokenArray) (i : Nat) (v : Option Str)
    (h0 : ¬ i < MAX_ARGS) : (a.store i v).slots = a.slots := by
  unfold TokenArray.store
  rw [if_neg h0]

theorem decide_lt_of_le (i j : Nat) (h : i ≤ j) :
    (decide (i < MAX_ARGS) && decide (j < MAX_ARGS)) = decide (j < MAX_ARGS) := by
  by_cases hj : j < MAX_ARGS
  · have hi : i < MAX_ARGS := by omega
    simp [hj, hi]
  · simp [hj]

theorem parseLoop_none (delim : Str) (i : Nat) (a : TokenArray) :
    parseLoop delim none i a = (i + 1, a.store i none) := by
  rw [parseLoop]
  simp [strsep]

theorem parseLoop_some (delim : Str) (s : Str) (i : Nat) (a : TokenArray) :
    parseLoop delim (some s) i a =
      if (strsepScan delim s).1 = [] then
        parseLoop delim (strsepScan delim s).2 i (a.store i (some (strsepScan delim s).1))
      else
        parseLoop delim (strsepScan delim s).2 (i + 1) (a.store i (some (strsepScan delim s).1)) := by
  rw [parseLoop]
  simp [strsep]

theorem isToken_iff (p : Str) : isToken p = true ↔ p ≠ [] := by
  cases p <;> simp [isToken]

theorem isToken_nil : isToken [] = false := rfl

theorem isToken_of_ne {p : Str} (h : p ≠ []) : isToken p = true := (isToken_iff p).2 h

theorem pieces_eq (delim : Str) (s : Str) :
    pieces delim s = (strsepScan delim s).1 :: restPieces delim (strsepScan delim s).2 := by
  induction s with
  | nil => simp [pieces, strsepScan, restPieces]
  | cons c cs ih =>
    by_cases h : c ∈ delim
    · simp [pieces, strsepScan, h, restPieces]
    · simp only [pieces, strsepScan, h, if_false]
      rw [ih]

theorem scan_remaining (delim : Str) (s : Str) :
    remaining (strsepScan delim s).2 < remaining (some s) := by
  induction s with
  | nil => simp [strsepScan, remaining]
  | cons c cs ih =>
    by_cases hc : c ∈ delim
    · simp [strsepScan, hc, remaining]
    · simp only [strsepScan, hc, if_false]
      simp only [remaining] at ih ⊢
      simp only [List.length_cons]
      omega

/-- The loop started at index `i`: final index, log of the stores, whether a store left the
array, and, when none did, the contents of the array. -/
theorem parseLoop_spec (delim : Str) :
    ∀ (m : Nat) (sp : Option Str) (i : Nat) (a : TokenArray), remaining sp ≤ m →
      (parseLoop delim sp i a).1 = i + ((restPieces delim sp).filter isToken).length + 1 ∧
      (parseLoop delim sp i a).2.writes = a.writes ++ loopWrites i (restPieces delim sp) ∧
      (parseLoop delim sp i a).2.inBounds =
        (a.inBounds &&
          decide (i + ((restPieces delim sp).filter isToken).length < MAX_ARGS)) ∧
      (i + ((restPieces delim sp).filter isToken).length < MAX_ARGS →
        i ≤ a.slots.length → a.slots.length ≤ i + 1 →
        (parseLoop delim sp i a).2.slots =
          a.slots.take i ++ ((restPieces delim sp).filter isToken).map some ++ [none]) := by
  intro m
  induction m with
  | zero =>
    intro sp i a hm
    cases sp with
    | some s => simp [remaining] at hm
    | none =>
      rw [parseLoop_none]
      refine ⟨by simp [restPieces], by simp [restPieces, loopWrites, store_writes],
        by simp [restPieces, store_inBounds], ?_⟩
      intro h0 h1 h2
      simp only [restPieces, List.filter_nil, List.length_nil, Nat.add_zero] at h0
      simp [restPieces, store_slots a i none h0 h1 h2]
  | succ m ih =>
    intro sp i a hm
    cases sp with
    | none =>
      rw [parseLoop_none]
      refine ⟨by simp [restPieces], by simp [restPieces, loopWrites, store_writes],
        by simp [restPieces, store_inBounds], ?_⟩
      intro h0 h1 h2
      simp only [restPieces, List.filter_nil, List.length_nil, Nat.add_zero] at h0
      simp [restPieces, store_slots a i none h0 h1 h2]
    | some s =>
      have hrem := scan_remaining delim s
      have hm' : remaining (strsepScan delim s).2 ≤ m := by omega
      rw [parseLoop_some]
      have hrp : restPieces delim (some s) = pieces delim s := rfl
      simp only [hrp, pieces_eq delim s]
      by_cases ht : (strsepScan delim s).1 = []
      · rw [if_pos ht]
        obtain ⟨e1, e2, e3, e4⟩ := ih (strsepScan delim s).2 i
          (a.store i (some (strsepScan delim s).1)) hm'
        rw [List.filter_cons_of_neg (by simp [ht, isToken_nil])]
        refine ⟨e1, ?_, ?_, ?_⟩
        · rw [e2, store_writes]
          simp [ht, loopWrites]
        · rw [e3, store_inBounds, Bool.and_assoc, decide_lt_of_le _ _ (Nat.le_add_right _ _)]
        · intro h0 h1 h2
          have hi : i < MAX_ARGS := by omega
          have hs := store_slots a i (some (strsepScan delim s).1) hi h1 h2
          have hlen : (a.store i (some (strsepScan delim s).1)).slots.length = i + 1 := by
            rw [hs]; simp; omega
          rw [e4 h0 (by omega) (by omega), hs]
          have htake : List.take i (List.take i a.slots ++ [some (strsepScan delim s).1])
              = List.take i a.slots := by
            rw [List.take_append_of_le_length (by simp; omega)]
            rw [List.take_take]; simp
          rw [htake]
      · rw [if_neg ht]
        obtain ⟨e1, e2, e3, e4⟩ := ih (strsepScan delim s).2 (i + 1)
          (a.store i (some (strsepScan delim s).1)) hm'
        rw [List.filter_cons_of_pos (by simp [isToken_of_ne ht])]
        refine ⟨?_, ?_, ?_, ?_⟩
        · rw [e1]; simp only [List.length_cons]; omega
        · rw [e2, store_writes]
          simp [ht, loopWrites]
        · rw [e3, store_inBounds, Bool.and_assoc]
          simp only [List.length_cons]
          rw [show i + 1 + ((restPieces delim (strsepScan delim s).2).filter isToken).length
              = i + (((restPieces delim (strsepScan delim s).2).filter isToken).length + 1)
              by omega]
          rw [decide_lt_of_le _ _ (Nat.le_add_right _ _)]
        · intro h0 h1 h2
          simp only [List.length_cons] at h0
          have hi : i < MAX_ARGS := by omega
          have hs := store_slots a i (some (strsepScan delim s).1) hi h1 h2
          have hlen : (a.store i (some (strsepScan delim s).1)).slots.length = i + 1 := by
            rw [hs]; simp; omega
          rw [e4 (by omega) (by omega) (by omega), hs]
          have htake : List.take (i + 1) (List.take i a.slots ++ [some (strsepScan delim s).1])
              = List.take i a.slots ++ [some (strsepScan delim s).1] := by
            apply List.take_of_length_le
            simp
          rw [htake]
          simp

theorem parseLoop_input (input delim : Str) :
    (parseLoop delim (some input) 0 TokenArray.fresh).1 = (tokens delim input).length + 1 ∧
    (parseLoop delim (some input) 0 TokenArray.fresh).2.writes =
      loopWrites 0 (pieces delim input) ∧
    (parseLoop delim (some input) 0 TokenArray.fresh).2.inBounds =
      decide ((tokens delim input).length < MAX_ARGS) ∧
    ((tokens delim input).length < MAX_ARGS →
      (parseLoop delim (some input) 0 TokenArray.fresh).2.slots =
        (tokens delim input).map some ++ [none]) := by
  obtain ⟨e1, e2, e3, e4⟩ := parseLoop_spec delim (remaining (some input)) (some input) 0
    TokenArray.fresh (Nat.le_refl _)
  simp only [restPieces, Nat.zero_add, TokenArray.fresh, List.nil_append, Bool.true_and,
    List.take_nil, List.length_nil] at e1 e2 e3 e4
  exact ⟨e1, e2, e3, fun h => e4 h (Nat.le_refl _) (Nat.zero_le _)⟩

theorem parseInput_writes (input delim : Str) :
    (parseInput input delim).writes =
      loopWrites 0 (pieces delim input) ++ [(tokens delim input).length + 1] := by
  obtain ⟨e1, e2, _, _⟩ := parseLoop_input input delim
  unfold parseInput
  rw [store_writes, e1, e2]

/-- The array of `parseInput` is overrun exactly when more than 98 tokens are kept. -/
theorem parseInput_inBounds (input delim : Str) :
    (parseInput input delim).inBounds = decide (fits delim input) := by
  obtain ⟨e1, _, e3, _⟩ := parseLoop_input input delim
  unfold parseInput
  rw [store_inBounds, e1, e3]
  exact decide_lt_of_le _ _ (Nat.le_succ _)

theorem parseInput_slots (input delim : Str) (h : fits delim input) :
    (parseInput input delim).slots = (tokens delim input).map some ++ [none, none] := by
  obtain ⟨e1, _, _, e4⟩ := parseLoop_input input delim
  have h' : (tokens delim input).length < MAX_ARGS := by unfold fits at h; omega
  unfold parseInput
  rw [e1, store_slots _ _ _ h (by rw [e4 h']; simp) (by rw [e4 h']; simp), e4 h']
  rw [List.take_of_length_le (by simp)]
  simp

theorem untilNull_map_some (toks : List Str) (rest : List (Option Str)) :
    untilNull (toks.map some ++ none :: rest) = toks := by
  induction toks with
  | nil => simp [untilNull]
  | cons t ts ih => simp [untilNull, ih]

/-- The entries before the first `NULL` are the tokens, as long as the loop itself stays
inside the array. -/
theorem untilNull_parseInput (input delim : Str) (h : (tokens delim input).length < MAX_ARGS) :
    untilNull (parseInput input delim).slots = tokens delim input := by
  by_cases hf : fits delim input
  · rw [parseInput_slots input delim hf]
    exact untilNull_map_some _ _
  · obtain ⟨e1, _, _, e4⟩ := parseLoop_input input delim
    unfold parseInput
    rw [e1, store_slots_outside _ _ _ hf, e4 h]
    exact untilNull_map_some _ _

theorem tokens_ne_nil (delim input : Str) : ∀ t ∈ tokens delim input, t ≠ [] := by
  intro t ht
  exact (isToken_iff t).1 (List.mem_filter.mp ht).2

theorem loopWrites_le (ps : List Str) :
    ∀ i w, w ∈ loopWrites i ps → w ≤ i + (ps.filter isToken).length := by
  induction ps with
  | nil => intro i w hw; simp [loopWrites] at hw; omega
  | cons p ps ih =>
    intro i w hw
    simp only [loopWrites, List.mem_cons] at hw
    rcases hw with hw | hw
    · omega
    · have := ih _ _ hw
      by_cases hp : p = []
      · simp [hp, isToken_nil] at this ⊢; exact this
      · simp [hp, isToken_of_ne hp] at this ⊢; omega

/-- Highest index stored by `parseInput`: the number of non-empty tokens plus one. -/
theorem parseInput_max_write (input delim : Str) :
    (tokens delim input).length + 1 ∈ (parseInput input delim).writes ∧
    ∀ w ∈ (parseInput input delim).writes, w ≤ (tokens delim input).length + 1 := by
  rw [parseInput_writes]
  refine ⟨by simp, ?_⟩
  intro w hw
  rcases List.mem_append.mp hw with hw | hw
  · have := loopWrites_le _ _ _ hw
    simp only [tokens]
    omega
  · simp at hw; omega

theorem slots_getD_zero (toks : List Str) (rest : List (Option Str)) :
    (toks.map some ++ none :: rest).getD 0 none = toks.head? := by
  cases toks <;> simp

theorem slots_getD_one (toks : List Str) :
    (toks.map some ++ [none, none]).getD 1 none = toks.tail.head? := by
  rcases toks with _ | ⟨t, _ | ⟨u, ts⟩⟩ <;> simp

theorem argv_eq_tokens (unit : Str) (h : (tokens " ".toList unit).length < MAX_ARGS) :
    argv unit = tokens " ".toList unit :=
  untilNull_parseInput unit " ".toList h

theorem executeCommand_eq (os : OS) (n : Nat) (command : Str) :
    executeCommand os n command =
      if fits " ".toList command then runArgs os n (tokens " ".toList command)
      else ⟨[], n, .undefined⟩ := by
  unfold executeCommand
  simp only [parseInput_inBounds]
  by_cases hf : fits " ".toList command
  · have h' : (tokens " ".toList command).length < MAX_ARGS := by unfold fits at hf; omega
    rw [if_pos hf]
    have hd : decide (fits " ".toList command) = true := decide_eq_true hf
    simp only [hd, if_true]
    rw [untilNull_parseInput _ _ h', parseInput_slots _ _ hf, slots_getD_zero]
    cases h : tokens " ".toList command with
    | nil => simp [runArgs]
    | cons file rest => simp [runArgs]
  · rw [if_neg hf]
    have hd : decide (fits " ".toList command) = false := decide_eq_false hf
    simp only [hd, Bool.false_eq_true, if_false]

theorem executeCommand_fits (os : OS) (n : Nat) (command : Str)
    (h : fits " ".toList command) :
    executeCommand os n command = runArgs os n (tokens " ".toList command) := by
  rw [executeCommand_eq, if_pos h]

theorem pieces_ne_nil (delim s : Str) : pieces delim s ≠ [] := by
  rw [pieces_eq]; simp

theorem tokens_cons_delim (delim : Str) (c : Char) (cs : Str) (h : c ∈ delim) :
    tokens delim (c :: cs) = tokens delim cs := by
  simp [tokens, pieces, h, isToken_nil]

theorem tokens_cons_ne_nil (delim : Str) (c : Char) (cs : Str) (h : c ∉ delim) :
    tokens delim (c :: cs) ≠ [] := by
  simp only [tokens, pieces, h, if_false]
  cases hp : pieces delim cs with
  | nil => simp [isToken]
  | cons p ps => simp [isToken]

theorem tokens_eq_nil_iff (delim s : Str) : tokens delim s = [] ↔ ∀ c ∈ s, c ∈ delim := by
  induction s with
  | nil => simp [tokens, pieces, isToken]
  | cons c cs ih =>
    by_cases h : c ∈ delim
    · rw [tokens_cons_delim delim c cs h, ih]
      simp [h]
    · constructor
      · intro ht; exact absurd ht (tokens_cons_ne_nil delim c cs h)
      · intro hall; exact absurd (hall c (List.mem_cons_self _ _)) h

theorem strstr_ne_none_iff (haystack needle : Str) :
    strstr haystack needle ≠ none ↔ needle <:+: haystack := by
  induction haystack with
  | nil =>
    by_cases h : needle = []
    · simp [strstr, h]
    · simp [strstr, h]
  | cons c cs ih =>
    by_cases h : needle.isPrefixOf (c :: cs) = true
    · have hp : needle <+: c :: cs := List.isPrefixOf_iff_prefix.mp h
      simp only [strstr, h, if_true]
      simp [hp.isInfix]
    · have hp : ¬ needle <+: c :: cs := fun hp => h (List.isPrefixOf_iff_prefix.mpr hp)
      simp only [strstr, h]
      rw [List.infix_cons_iff]
      simp only [Bool.false_eq_true, if_false]
      rw [ih]
      simp [hp]

theorem executeCommandRedirection_eq (os : OS) (n : Nat) (input : Str) :
    executeCommandRedirection os n input =
      if fits ">".toList input then
        match tokens ">".toList input with
        | command :: output_file :: _ =>
          (match os.fork n with
           | .child =>
             if os.openFile output_file then
               Run.after
                 [.fork .child,
                  .openFile output_file [.O_WRONLY, .O_CREAT, .O_TRUNC] 0o644 true,
                  .dup2Stdout, .close]
                 ((executeCommand os (n + 1) command).andThen (exitWith 0))
             else
               ⟨[.fork .child,
                 .openFile output_file [.O_WRONLY, .O_CREAT, .O_TRUNC] 0o644 false,
                 .perror "Failed to open file".toList, .exit 1], n + 1, .exited 1⟩
           | r => ⟨[.fork r, .wait], n + 1, .returned⟩)
        | _ => ⟨[.printf "Shell: Incorrect command\n".toList], n, .returned⟩
      else ⟨[], n, .undefined⟩ := by
  unfold executeCommandRedirection
  simp only [parseInput_inBounds]
  by_cases hf : fits ">".toList input
  · have hd : decide (fits ">".toList input) = true := decide_eq_true hf
    rw [if_pos hf]
    simp only [hd, if_true]
    rw [parseInput_slots _ _ hf, slots_getD_zero, slots_getD_one]
    rcases h : tokens ">".toList input with _ | ⟨t, _ | ⟨u, ts⟩⟩
    · simp
    · simp
    · simp only [List.head?_cons, List.tail_cons]
  · have hd : decide (fits ">".toList input) = false := decide_eq_false hf
    rw [if_neg hf]
    simp only [hd, Bool.false_eq_true, if_false]

theorem parallelWait_slots (toks : List Str) (rest : List (Option Str)) :
    parallelWait (toks.map some ++ none :: rest) = List.replicate toks.length Event.wait := by
  induction toks with
  | nil => simp [parallelWait]
  | cons t ts ih => simp [parallelWait, ih, List.replicate_succ]

theorem parallelSpawn_shell (os : OS) (hshell : ∀ k, os.fork k ≠ .child)
    (rest : List (Option Str)) :
    ∀ (toks : List Str) (n : Nat), (∀ t ∈ toks, t ≠ []) →
      parallelSpawn os n (toks.map some ++ none :: rest) =
        ⟨(List.range toks.length).map (fun k => Event.fork (os.fork (n + k))),
         n + toks.length, .returned⟩ := by
  intro toks
  induction toks with
  | nil => intro n _; simp [parallelSpawn]
  | cons t ts ih =>
    intro n hne
    have ht : ¬ t.length = 0 := by
      intro h; exact hne t (List.mem_cons_self _ _) (List.length_eq_zero.mp h)
    have hts : ∀ u ∈ ts, u ≠ [] := fun u hu => hne u (List.mem_cons_of_mem _ hu)
    simp only [List.map_cons, List.cons_append, parallelSpawn, if_neg ht]
    rw [List.length_cons, List.range_succ_eq_map]
    cases hf : os.fork n with
    | child => exact absurd hf (hshell n)
    | failed =>
      simp [Run.after, ih (n + 1) hts, Nat.add_assoc, Nat.add_comm 1, Function.comp_def, hf]
    | parent =>
      simp [Run.after, ih (n + 1) hts, Nat.add_assoc, Nat.add_comm 1, Function.comp_def, hf]

theorem executeParallelCommands_overrun (os : OS) (n : Nat) (input : Str)
    (hf : ¬ fits "&&".toList input) :
    executeParallelCommands os n input = ⟨[], n, .undefined⟩ := by
  have hd : decide (fits "&&".toList input) = false := decide_eq_false hf
  unfold executeParallelCommands
  simp only [parseInput_inBounds, hd, Bool.false_eq_true, if_false]

theorem executeParallelCommands_shell (os : OS) (hshell : ∀ k, os.fork k ≠ .child)
    (n : Nat) (input : Str) (hf : fits "&&".toList input) :
    executeParallelCommands os n input =
      ⟨(List.range (tokens "&&".toList input).length).map
          (fun k => Event.fork (os.fork (n + k))) ++
        List.replicate (tokens "&&".toList input).length Event.wait,
       n + (tokens "&&".toList input).length, .returned⟩ := by
  have hd : decide (fits "&&".toList input) = true := decide_eq_true hf
  unfold executeParallelCommands
  simp only [parseInput_inBounds, hd, if_true]
  rw [parseInput_slots _ _ hf, parallelSpawn_shell os hshell _ _ n (tokens_ne_nil _ _),
    parallelWait_slots]
  simp [Run.andThen, Run.after]

theorem runArgs_nil (os : OS) (n : Nat) : runArgs os n [] = ⟨[], n, .returned⟩ := rfl

theorem runArgs_parent (os : OS) (n : Nat) (f : Str) (r : List Str)
    (h : os.fork n = .parent) :
    runArgs os n (f :: r) = ⟨[.fork .parent, .wait], n + 1, .returned⟩ := by
  simp [runArgs, h]

theorem runArgs_failed (os : OS) (n : Nat) (f : Str) (r : List Str)
    (h : os.fork n = .failed) :
    runArgs os n (f :: r) =
      ⟨[.fork .failed, .perror "Fork failed".toList, .exit 1], n + 1, .exited 1⟩ := by
  simp [runArgs, h]

theorem runArgs_child (os : OS) (n : Nat) (f : Str) (r : List Str)
    (h : os.fork n = .child) :
    (runArgs os n (f :: r)).trace = childExec os (f :: r) ∧
    (runArgs os n (f :: r)).outcome ≠ .returned := by
  by_cases he : os.execvp f (f :: r) = true
  · simp [runArgs, h, he, childExec]
  · simp [runArgs, h, he, childExec]

theorem andThen_returned (t : List Event) (n : Nat) (k : Nat → Run) :
    Run.andThen ⟨t, n, .returned⟩ k = Run.after t (k n) := rfl

theorem andThen_stopped (r : Run) (k : Nat → Run) (h : r.outcome ≠ .returned) :
    r.andThen k = r := by
  unfold Run.andThen
  cases ho : r.outcome with
  | returned => exact absurd ho h
  | exited s => rfl
  | replaced => rfl
  | undefined => rfl

theorem sequentialLoop_cons (os : OS) (n : Nat) (t : Str) (rest : List (Option Str))
    (ht : t ≠ []) (hf : fits " ".toList t) :
    sequentialLoop os n (some t :: rest) =
      (runArgs os n (tokens " ".toList t)).andThen (fun m => sequentialLoop os m rest) := by
  have hl : ¬ t.length = 0 := fun h => ht (List.length_eq_zero.mp h)
  simp only [sequentialLoop, if_neg hl, executeCommand_fits os n t hf]

/-- Parent view of the sequential loop: one `fork`/`wait` pair per unit that has arguments. -/
theorem sequentialLoop_parent (os : OS) (hfork : ∀ k, os.fork k = .parent)
    (rest : List (Option Str)) :
    ∀ (toks : List Str) (n : Nat), (∀ t ∈ toks, t ≠ []) → (∀ t ∈ toks, fits " ".toList t) →
      sequentialLoop os n (toks.map some ++ none :: rest) =
        ⟨(((toks.map (tokens " ".toList)).filter (fun a => !a.isEmpty)).map
            (fun _ => [Event.fork .parent, Event.wait])).flatten,
         n + ((toks.map (tokens " ".toList)).filter (fun a => !a.isEmpty)).length,
         .returned⟩ := by
  intro toks
  induction toks with
  | nil => intro n _ _; simp [sequentialLoop]
  | cons t ts ih =>
    intro n hne hfit
    have hts : ∀ u ∈ ts, u ≠ [] := fun u hu => hne u (List.mem_cons_of_mem _ hu)
    have hfs : ∀ u ∈ ts, fits " ".toList u := fun u hu => hfit u (List.mem_cons_of_mem _ hu)
    rw [List.map_cons, List.cons_append,
      sequentialLoop_cons os n t _ (hne t (List.mem_cons_self _ _))
        (hfit t (List.mem_cons_self _ _))]
    cases hargs : tokens " ".toList t with
    | nil =>
      rw [runArgs_nil, andThen_returned, ih n hts hfs]
      simp only [List.map_cons, hargs]
      rw [List.filter_cons_of_neg (by simp)]
      simp [Run.after]
    | cons f r =>
      rw [runArgs_parent os n f r (hfork n), andThen_returned, ih (n + 1) hts hfs]
      simp only [List.map_cons, hargs]
      rw [List.filter_cons_of_pos (by simp)]
      simp [Run.after]
      omega

/-- The path that follows the child created for the `j`-th unit with arguments. -/
theorem sequentialLoop_child (os : OS) (rest : List (Option Str)) :
    ∀ (toks : List Str) (n j : Nat) (a : List Str), (∀ t ∈ toks, t ≠ []) →
      (∀ t ∈ toks, fits " ".toList t) →
      ((toks.map (tokens " ".toList)).filter (fun a => !a.isEmpty))[j]? = some a →
      (∀ k, k < j → os.fork (n + k) = .parent) → os.fork (n + j) = .child →
      (sequentialLoop os n (toks.map some ++ none :: rest)).trace =
        (List.replicate j [Event.fork .parent, Event.wait]).flatten ++ childExec os a := by
  intro toks
  induction toks with
  | nil => intro n j a _ _ hj; simp at hj
  | cons t ts ih =>
    intro n j a hne hfit hj hpar hchild
    have hts : ∀ u ∈ ts, u ≠ [] := fun u hu => hne u (List.mem_cons_of_mem _ hu)
    have hfs : ∀ u ∈ ts, fits " ".toList u := fun u hu => hfit u (List.mem_cons_of_mem _ hu)
    rw [List.map_cons, List.cons_append,
      sequentialLoop_cons os n t _ (hne t (List.mem_cons_self _ _))
        (hfit t (List.mem_cons_self _ _))]
    cases hargs : tokens " ".toList t with
    | nil =>
      rw [runArgs_nil, andThen_returned]
      simp only [List.map_cons, hargs] at hj
      rw [List.filter_cons_of_neg (by simp)] at hj
      simp only [Run.after, List.nil_append]
      exact ih n j a hts hfs hj hpar hchild
    | cons f r =>
      simp only [List.map_cons, hargs] at hj
      rw [List.filter_cons_of_pos (by simp)] at hj
      cases j with
      | zero =>
        simp only [List.getElem?_cons_zero, Option.some.injEq] at hj
        subst hj
        have hc := runArgs_child os n f r (by simpa using hchild)
        rw [andThen_stopped _ _ hc.2, hc.1]
        simp
      | succ j =>
        simp only [List.getElem?_cons_succ] at hj
        have h0 : os.fork n = .parent := by simpa using hpar 0 (Nat.succ_pos _)
        rw [runArgs_parent os n f r h0, andThen_returned]
        have := ih (n + 1) j a hts hfs hj
          (fun k hk => by
            have := hpar (k + 1) (by omega)
            rwa [show n + (k + 1) = n + 1 + k by omega] at this)
          (by rwa [show n + (j + 1) = n + 1 + j by omega] at hchild)
        simp only [Run.after, this]
        simp [List.replicate_succ]

theorem runArgs_returnsOrForkExit (os : OS) (n : Nat) (a : List Str)
    (h : os.fork n ≠ .child) : ReturnsOrForkExit (runArgs os n a) := by
  cases a with
  | nil => left; simp [runArgs]
  | cons f r =>
    cases hf : os.fork n with
    | child => exact absurd hf h
    | failed =>
      right
      rw [runArgs_failed os n f r hf]
      exact ⟨rfl, List.suffix_refl _⟩
    | parent =>
      left
      rw [runArgs_parent os n f r hf]
      simp

theorem andThen_returnsOrForkExit (r : Run) (k : Nat → Run)
    (hr : ReturnsOrForkExit r) (hk : ReturnsOrForkExit (k r.forks)) :
    ReturnsOrForkExit (r.andThen k) := by
  rcases hr with ⟨ho, hclean⟩ | ⟨ho, hsuf⟩
  · obtain ⟨t, m, o⟩ := r
    simp only at ho hclean hk
    subst ho
    rw [andThen_returned]
    rcases hk with ⟨hko, hkclean⟩ | ⟨hko, hksuf⟩
    · left
      refine ⟨hko, ?_⟩
      simp only [Run.after, List.mem_append, not_or]
      exact ⟨hclean, hkclean⟩
    · right
      refine ⟨hko, ?_⟩
      simp only [Run.after]
      exact hksuf.trans (List.suffix_append _ _)
  · right
    rw [andThen_stopped r k (by rw [ho]; simp)]
    exact ⟨ho, hsuf⟩

theorem sequentialLoop_returnsOrForkExit (os : OS) (hshell : ∀ k, os.fork k ≠ .child)
    (rest : List (Option Str)) :
    ∀ (toks : List Str) (n : Nat), (∀ t ∈ toks, t ≠ []) → (∀ t ∈ toks, fits " ".toList t) →
      ReturnsOrForkExit (sequentialLoop os n (toks.map some ++ none :: rest)) := by
  intro toks
  induction toks with
  | nil => intro n _ _; left; simp [sequentialLoop]
  | cons t ts ih =>
    intro n hne hfit
    have hts : ∀ u ∈ ts, u ≠ [] := fun u hu => hne u (List.mem_cons_of_mem _ hu)
    have hfs : ∀ u ∈ ts, fits " ".toList u := fun u hu => hfit u (List.mem_cons_of_mem _ hu)
    rw [List.map_cons, List.cons_append,
      sequentialLoop_cons os n t _ (hne t (List.mem_cons_self _ _))
        (hfit t (List.mem_cons_self _ _))]
    exact andThen_returnsOrForkExit _ _ (runArgs_returnsOrForkExit os n _ (hshell n))
      (ih _ hts hfs)

theorem executeSequentialCommands_fits (os : OS) (n : Nat) (input : Str)
    (hf : fits "##".toList input) :
    executeSequentialCommands os n input =
      sequentialLoop os n ((tokens "##".toList input).map some ++ [none, none]) := by
  have hd : decide (fits "##".toList input) = true := decide_eq_true hf
  unfold executeSequentialCommands
  simp only [parseInput_inBounds, hd, if_true]
  rw [parseInput_slots _ _ hf]

theorem executeSequentialCommands_overrun (os : OS) (n : Nat) (input : Str)
    (hf : ¬ fits "##".toList input) :
    executeSequentialCommands os n input = ⟨[], n, .undefined⟩ := by
  have hd : decide (fits "##".toList input) = false := decide_eq_false hf
  unfold executeSequentialCommands
  simp only [parseInput_inBounds, hd, Bool.false_eq_true, if_false]

/-! ## Behaviour while the arrays are not overrun -/

/-- Within the capacity of `commands`, the redirection strategy prints only the diagnostic
when the split by `>` yields fewer than two tokens, and otherwise the calling process makes
exactly one `fork` call followed by exactly one `wait`. -/
theorem redirection_spawn_wait_within_capacity (os : OS) (n : Nat) (input : Str)
    (hcap : fits ">".toList input) :
    ((untilNull (parseInput input ">".toList).slots).length < 2 →
      executeCommandRedirection os n input =
        ⟨[.printf "Shell: Incorrect command\n".toList], n, .returned⟩) ∧
    (2 ≤ (untilNull (parseInput input ">".toList).slots).length → os.fork n ≠ .child →
      executeCommandRedirection os n input = ⟨[.fork (os.fork n), .wait], n + 1, .returned⟩) := by
  rw [untilNull_parseInput _ _ (by unfold fits at hcap; omega), executeCommandRedirection_eq,
    if_pos hcap]
  rcases h : tokens ">".toList input with _ | ⟨t, _ | ⟨u, ts⟩⟩
  · simp
  · simp
  · refine ⟨by simp, ?_⟩
    intro _ hfork
    cases hf : os.fork n with
    | child => exact absurd hf hfork
    | failed => rfl
    | parent => rfl

/-- Within the capacity of `commands`, when every process creation succeeds the parallel
strategy issues `n` forks followed by `n` waits, `n` the number of units of the split. -/
theorem parallel_spawns_then_waits_within_capacity (os : OS) (n : Nat) (input : Str)
    (hcap : fits "&&".toList input) (hfork : ∀ k, os.fork k = .parent) :
    executeParallelCommands os n input =
      ⟨List.replicate (untilNull (parseInput input "&&".toList).slots).length
          (Event.fork .parent) ++
        List.replicate (untilNull (parseInput input "&&".toList).slots).length Event.wait,
       n + (untilNull (parseInput input "&&".toList).slots).length, .returned⟩ := by
  rw [untilNull_parseInput _ _ (by unfold fits at hcap; omega),
    executeParallelCommands_shell os (fun k h => by rw [hfork k] at h; cases h) n input hcap]
  congr 2
  apply List.ext_getElem
  · simp
  · intro k h1 h2
    simp [hfork]

theorem sequentialArgvs_eq (input : Str) (hcap : fits "##".toList input)
    (hunits : ∀ u ∈ tokens "##".toList input, fits " ".toList u) :
    sequentialArgvs input =
      ((tokens "##".toList input).map (tokens " ".toList)).filter (fun a => !a.isEmpty) := by
  unfold sequentialArgvs
  rw [untilNull_parseInput _ _ (by unfold fits at hcap; omega)]
  congr 1
  apply List.map_congr_left
  intro u hu
  exact argv_eq_tokens u (by have := hunits u hu; unfold fits at this; omega)

/-- Within the capacity of `commands` and of the `args` of every unit, the sequential
strategy issues in the calling process one `fork` immediately followed by one `wait` per unit
with arguments, in split order, whatever `execvp` does in the children; the child of the
`j`-th fork calls `execvp` with the argument vector of the `j`-th such unit. -/
theorem sequential_order_within_capacity (os : OS) (n : Nat) (input : Str)
    (hcap : fits "##".toList input)
    (hunits : ∀ u ∈ tokens "##".toList input, fits " ".toList u) :
    ((∀ k, os.fork k = .parent) →
      executeSequentialCommands os n input =
        ⟨((sequentialArgvs input).map (fun _ => [Event.fork .parent, Event.wait])).flatten,
         n + (sequentialArgvs input).length, .returned⟩) ∧
    (∀ j a, (sequentialArgvs input)[j]? = some a →
      (∀ k, k < j → os.fork (n + k) = .parent) → os.fork (n + j) = .child →
      (executeSequentialCommands os n input).trace =
        (List.replicate j [Event.fork .parent, Event.wait]).flatten ++ childExec os a) := by
  rw [sequentialArgvs_eq input hcap hunits, executeSequentialCommands_fits os n input hcap]
  constructor
  · intro hfork
    exact sequentialLoop_parent os hfork _ _ n (tokens_ne_nil _ _) hunits
  · intro j a hj hpar hchild
    exact sequentialLoop_child os _ _ n j a (tokens_ne_nil _ _) hunits hj hpar hchild

/-- Within the capacity of `args`, `executeCommand` does nothing on a unit without tokens and
otherwise makes one `fork` call: the parent then waits once, the child calls `execvp` with
the first token and the whole vector of non-empty space-separated tokens. -/
theorem executeCommand_spawn_wait_within_capacity (os : OS) (n : Nat) (unit : Str)
    (hcap : fits " ".toList unit) :
    argv unit = tokens " ".toList unit ∧
    (argv unit = [] ↔ ∀ c ∈ unit, c = ' ') ∧
    (argv unit = [] → executeCommand os n unit = ⟨[], n, .returned⟩) ∧
    (argv unit ≠ [] → os.fork n = .parent →
      executeCommand os n unit = ⟨[.fork .parent, .wait], n + 1, .returned⟩) ∧
    (argv unit ≠ [] → os.fork n = .child →
      ∃ file rest, argv unit = file :: rest ∧
        (executeCommand os n unit).trace =
          [.fork .child, .execvp file (argv unit)] ++
            (if os.execvp file (argv unit) then []
             else [.perror "Shell: Incorrect command".toList, .exit 1])) ∧
    (∀ file args, Event.execvp file args ∈ (executeCommand os n unit).trace →
      args = argv unit ∧ args ≠ [] ∧ args.head? = some file) := by
  rw [argv_eq_tokens unit (by unfold fits at hcap; omega), executeCommand_fits os n unit hcap]
  refine ⟨rfl, ?_, ?_, ?_, ?_, ?_⟩
  · rw [tokens_eq_nil_iff]; simp
  · intro h; rw [h]; rfl
  · intro h hf
    cases ht : tokens " ".toList unit with
    | nil => exact absurd ht h
    | cons file rest => simp [runArgs, hf]
  · intro h hf
    cases ht : tokens " ".toList unit with
    | nil => exact absurd ht h
    | cons file rest =>
      refine ⟨file, rest, rfl, ?_⟩
      by_cases he : os.execvp file (file :: rest) = true
      · simp [runArgs, hf, he]
      · simp [runArgs, hf, he]
  · intro file args hmem
    cases ht : tokens " ".toList unit with
    | nil => rw [ht] at hmem; simp [runArgs] at hmem
    | cons f rest =>
      rw [ht] at hmem
      simp only [runArgs] at hmem
      cases hf : os.fork n with
      | failed => rw [hf] at hmem; simp at hmem
      | parent => rw [hf] at hmem; simp at hmem
      | child =>
        rw [hf] at hmem
        by_cases he : os.execvp f (f :: rest) = true
        · simp [he] at hmem
          obtain ⟨rfl, rfl⟩ := hmem
          simp
        · simp [he] at hmem
          obtain ⟨rfl, rfl⟩ := hmem
          simp

/-- Within the capacity of the array, the array filled by the tokenizer loop consists of the
kept tokens followed by two `NULL` stores, and no entry is a zero-length string. -/
theorem parseInput_no_empty_token_within_capacity (input delimiter : Str)
    (hcap : fits delimiter input) :
    (parseInput input delimiter).inBounds = true ∧
    (parseInput input delimiter).slots =
      (untilNull (parseInput input delimiter).slots).map some ++ [none, none] ∧
    (∀ e ∈ (parseInput input delimiter).slots, e ≠ some []) ∧
    (∀ t ∈ untilNull (parseInput input delimiter).slots, t ≠ []) := by
  have hne := tokens_ne_nil delimiter input
  have hlt : (tokens delimiter input).length < MAX_ARGS := by unfold fits at hcap; omega
  refine ⟨?_, ?_, ?_, ?_⟩
  · rw [parseInput_inBounds]; exact decide_eq_true hcap
  · rw [untilNull_parseInput _ _ hlt, parseInput_slots _ _ hcap]
  · intro e he
    rw [parseInput_slots _ _ hcap] at he
    rcases List.mem_append.mp he with h | h
    · obtain ⟨t, ht, rfl⟩ := List.mem_map.mp h
      intro hcontra
      exact hne t ht (Option.some.inj hcontra)
    · intro hcontra
      subst hcontra
      simp at h
  · rw [untilNull_parseInput _ _ hlt]; exact hne

/-! ## The bounded theorems at concrete lines -/

/-- The lines `echo x >` and `> out.txt` only get the diagnostic; `echo hi > out.txt` is one
`fork` followed by one `wait` in the shell. -/
theorem redirection_spawn_wait_example :
    executeCommandRedirection shellOS 0 "echo x >".toList =
        ⟨[.printf "Shell: Incorrect command\n".toList], 0, .returned⟩ ∧
    executeCommandRedirection shellOS 0 "> out.txt".toList =
        ⟨[.printf "Shell: Incorrect command\n".toList], 0, .returned⟩ ∧
    executeCommandRedirection shellOS 0 "echo hi > out.txt".toList =
        ⟨[.fork .parent, .wait], 1, .returned⟩ :=
  ⟨(redirection_spawn_wait_within_capacity shellOS 0 "echo x >".toList (by decide)).1
      (by rw [untilNull_parseInput _ _ (by decide)]; decide),
   (redirection_spawn_wait_within_capacity shellOS 0 "> out.txt".toList (by decide)).1
      (by rw [untilNull_parseInput _ _ (by decide)]; decide),
   (redirection_spawn_wait_within_capacity shellOS 0 "echo hi > out.txt".toList
      (by decide)).2
      (by rw [untilNull_parseInput _ _ (by decide)]; decide) (by decide)⟩

/-- The line `pwd && ls`: two forks, then two waits. -/
theorem parallel_spawns_then_waits_example :
    executeParallelCommands shellOS 0 "pwd && ls".toList =
      ⟨[.fork .parent, .fork .parent, .wait, .wait], 2, .returned⟩ := by
  have h := parallel_spawns_then_waits_within_capacity shellOS 0 "pwd && ls".toList
    (by decide) (fun _ => rfl)
  rw [untilNull_parseInput _ _ (by decide)] at h
  rw [h]
  decide

/-- The line `echo a ## echo b`: fork, wait, fork, wait in the shell, and the second child
calls `execvp` with `echo`, `b`. -/
theorem sequential_order_example :
    executeSequentialCommands shellOS 0 "echo a ## echo b".toList =
        ⟨[.fork .parent, .wait, .fork .parent, .wait], 2, .returned⟩ ∧
    (executeSequentialCommands secondChildOS 0 "echo a ## echo b".toList).trace =
        [.fork .parent, .wait, .fork .child,
         .execvp "echo".toList ["echo".toList, "b".toList]] := by
  have hq := sequentialArgvs_eq "echo a ## echo b".toList (by decide) (by decide)
  have h := sequential_order_within_capacity shellOS 0 "echo a ## echo b".toList
    (by decide) (by decide)
  have h2 := (sequential_order_within_capacity secondChildOS 0 "echo a ## echo b".toList
    (by decide) (by decide)).2 1
    ["echo".toList, "b".toList] (by rw [hq]; decide) (by decide) (by decide)
  rw [hq] at h
  refine ⟨?_, ?_⟩
  · rw [h.1 (fun _ => rfl)]; decide
  · rw [h2]; decide

/-- A unit of three spaces does nothing; the unit ` ls  -l ` is one fork and one wait. -/
theorem executeCommand_spawn_wait_example :
    executeCommand shellOS 0 "   ".toList = ⟨[], 0, .returned⟩ ∧
    executeCommand shellOS 0 " ls  -l ".toList = ⟨[.fork .parent, .wait], 1, .returned⟩ :=
  ⟨(executeCommand_spawn_wait_within_capacity shellOS 0 "   ".toList (by decide)).2.2.1
      (by rw [argv_eq_tokens _ (by decide)]; decide),
   (executeCommand_spawn_wait_within_capacity shellOS 0 " ls  -l ".toList
      (by decide)).2.2.2.1
      (by rw [argv_eq_tokens _ (by decide)]; decide) (by decide)⟩

/-- Leading, doubled and trailing delimiters leave no empty entry; a unit of spaces leaves
no entry at all. -/
theorem parseInput_no_empty_token_example :
    (parseInput "&& ls&&&& pwd &&".toList "&&".toList).slots =
        [some " ls".toList, some " pwd ".toList, none, none] ∧
    (parseInput "   ".toList " ".toList).slots = [none, none] := by
  have h1 := (parseInput_no_empty_token_within_capacity "&& ls&&&& pwd &&".toList
    "&&".toList (by decide)).2.1
  have h2 := (parseInput_no_empty_token_within_capacity "   ".toList " ".toList
    (by decide)).2.1
  rw [untilNull_parseInput _ _ (by decide)] at h1 h2
  refine ⟨?_, ?_⟩
  · rw [h1]; decide
  · rw [h2]; decide

/-! ## The claims -/

set_option maxRecDepth 100000

/-- C1: when the loop of `main` has read a line that is neither empty nor `exit`, the line is
handed to exactly one strategy, chosen by substring presence in fixed priority: `&&`, then
`##`, then `>`, then the single-command executor.  In particular a line containing `&&` goes
to the parallel strategy whatever else it contains. -/
theorem dispatch_priority (os : OS) (n : Nat) (stdin buf : Str)
    (hread : (fgets MAX_CMD_LEN stdin).1 = some buf)
    (hne : stripNewline buf ≠ [])
    (hexit : stripNewline buf ≠ "exit".toList) :
    mainIteration os n stdin =
      Run.after [.printf (os.cwd ++ "$ ".toList)]
        (if "&&".toList <:+: stripNewline buf then
           executeParallelCommands os n (stripNewline buf)
         else if "##".toList <:+: stripNewline buf then
           executeSequentialCommands os n (stripNewline buf)
         else if ">".toList <:+: stripNewline buf then
           executeCommandRedirection os n (stripNewline buf)
         else executeCommand os n (stripNewline buf)) ∧
    ("&&".toList <:+: stripNewline buf →
      mainIteration os n stdin =
        Run.after [.printf (os.cwd ++ "$ ".toList)]
          (executeParallelCommands os n (stripNewline buf))) := by
  have hlen : ¬ (stripNewline buf).length = 0 := by
    intro h; exact hne (List.length_eq_zero.mp h)
  have main : mainIteration os n stdin =
      Run.after [.printf (os.cwd ++ "$ ".toList)]
        (if "&&".toList <:+: stripNewline buf then
           executeParallelCommands os n (stripNewline buf)
         else if "##".toList <:+: stripNewline buf then
           executeSequentialCommands os n (stripNewline buf)
         else if ">".toList <:+: stripNewline buf then
           executeCommandRedirection os n (stripNewline buf)
         else executeCommand os n (stripNewline buf)) := by
    unfold mainIteration
    rw [hread]
    simp only [if_neg hexit, if_neg hlen, dispatch, strstr_ne_none_iff]
  refine ⟨main, ?_⟩
  intro hpar
  rw [main, if_pos hpar]

/-- The line `pwd && ls > f ## date` contains all three delimiters and is run by the
parallel strategy. -/
theorem dispatch_priority_witness :
    mainIteration shellOS 0 "pwd && ls > f ## date\nnext".toList =
      Run.after [.printf (shellOS.cwd ++ "$ ".toList)]
        (executeParallelCommands shellOS 0 "pwd && ls > f ## date".toList) :=
  (dispatch_priority shellOS 0 "pwd && ls > f ## date\nnext".toList
    "pwd && ls > f ## date\n".toList (by decide) (by decide) (by decide)).2 (by decide)

/-- C2: on the line `echo hi > out.txt` the shell forks once and waits; the child opens the
path made of a space followed by `out.txt` (the token after `>` is used as it is, its
leading space included), not the path `out.txt`; it then redirects its standard output and
runs `executeCommand` on the command text, whose own child calls `execvp` with the vector
`echo`, `hi`. -/
theorem redirection_path_keeps_space :
    dispatch shellOS 0 "echo hi > out.txt".toList = ⟨[.fork .parent, .wait], 1, .returned⟩ ∧
    dispatch childOS 0 "echo hi > out.txt".toList =
      ⟨[.fork .child,
        .openFile " out.txt".toList [.O_WRONLY, .O_CREAT, .O_TRUNC] 0o644 true,
        .dup2Stdout, .close,
        .fork .child, .execvp "echo".toList ["echo".toList, "hi".toList]],
       2, .replaced⟩ ∧
    (∀ flags mode ok, Event.openFile "out.txt".toList flags mode ok ∉
      (dispatch childOS 0 "echo hi > out.txt".toList).trace) ∧
    untilNull (parseInput "echo hi > out.txt".toList ">".toList).slots =
      ["echo hi ".toList, " out.txt".toList] := by
  have hchild : dispatch childOS 0 "echo hi > out.txt".toList =
      ⟨[.fork .child,
        .openFile " out.txt".toList [.O_WRONLY, .O_CREAT, .O_TRUNC] 0o644 true,
        .dup2Stdout, .close,
        .fork .child, .execvp "echo".toList ["echo".toList, "hi".toList]],
       2, .replaced⟩ := by
    simp only [dispatch, executeCommandRedirection_eq, executeCommand_eq]
    decide
  refine ⟨?_, hchild, ?_, ?_⟩
  · simp only [dispatch, executeCommandRedirection_eq, executeCommand_eq]
    decide
  · intro flags mode ok
    rw [hchild]
    simp
  · rw [untilNull_parseInput _ _ (by decide)]; decide

/-- C4: the line of 120 one-letter units separated by `&&` (358 bytes) is handed to the
parallel strategy; the split keeps 120 tokens and stores up to `commands[121]`, outside the
`MAX_ARGS = 100` slots of the array: the behaviour is undefined, and the run is not 120 forks
followed by 120 waits. -/
theorem parallel_array_overrun :
    (unitsLine 120 "&&".toList).length = 358 ∧
    (fgets MAX_CMD_LEN (unitsLine 120 "&&".toList ++ "\n".toList)).1 =
      some (unitsLine 120 "&&".toList ++ "\n".toList) ∧
    stripNewline (unitsLine 120 "&&".toList ++ "\n".toList) = unitsLine 120 "&&".toList ∧
    dispatch shellOS 0 (unitsLine 120 "&&".toList) =
      executeParallelCommands shellOS 0 (unitsLine 120 "&&".toList) ∧
    (tokens "&&".toList (unitsLine 120 "&&".toList)).length = 120 ∧
    MAX_ARGS ∈ (parseInput (unitsLine 120 "&&".toList) "&&".toList).writes ∧
    121 ∈ (parseInput (unitsLine 120 "&&".toList) "&&".toList).writes ∧
    (parseInput (unitsLine 120 "&&".toList) "&&".toList).inBounds = false ∧
    executeParallelCommands shellOS 0 (unitsLine 120 "&&".toList) = ⟨[], 0, .undefined⟩ ∧
    executeParallelCommands shellOS 0 (unitsLine 120 "&&".toList) ≠
      ⟨List.replicate 120 (Event.fork .parent) ++ List.replicate 120 Event.wait,
       120, .returned⟩ := by
  have hrun : executeParallelCommands shellOS 0 (unitsLine 120 "&&".toList) =
      ⟨[], 0, .undefined⟩ := executeParallelCommands_overrun _ _ _ (by decide)
  refine ⟨by decide, by decide, by decide, ?_, by decide, ?_, ?_, ?_, hrun, ?_⟩
  · simp only [dispatch]
    rw [if_pos (by decide)]
  · rw [parseInput_writes]; decide
  · rw [parseInput_writes]; decide
  · rw [parseInput_inBounds]; decide
  · rw [hrun]; simp

/-- C5: the line of 120 one-letter units separated by `##` (358 bytes) is handed to the
sequential strategy; the split keeps 120 tokens and stores up to `commands[121]`, outside the
`MAX_ARGS = 100` slots of the array: the behaviour is undefined before the first command is
started, and the run is not 120 `fork`/`wait` pairs. -/
theorem sequential_array_overrun :
    (unitsLine 120 "##".toList).length = 358 ∧
    (fgets MAX_CMD_LEN (unitsLine 120 "##".toList ++ "\n".toList)).1 =
      some (unitsLine 120 "##".toList ++ "\n".toList) ∧
    stripNewline (unitsLine 120 "##".toList ++ "\n".toList) = unitsLine 120 "##".toList ∧
    dispatch shellOS 0 (unitsLine 120 "##".toList) =
      executeSequentialCommands shellOS 0 (unitsLine 120 "##".toList) ∧
    (tokens "##".toList (unitsLine 120 "##".toList)).length = 120 ∧
    MAX_ARGS ∈ (parseInput (unitsLine 120 "##".toList) "##".toList).writes ∧
    121 ∈ (parseInput (unitsLine 120 "##".toList) "##".toList).writes ∧
    (parseInput (unitsLine 120 "##".toList) "##".toList).inBounds = false ∧
    executeSequentialCommands shellOS 0 (unitsLine 120 "##".toList) = ⟨[], 0, .undefined⟩ ∧
    executeSequentialCommands shellOS 0 (unitsLine 120 "##".toList) ≠
      ⟨(List.replicate 120 [Event.fork .parent, Event.wait]).flatten, 120, .returned⟩ := by
  have hrun : executeSequentialCommands shellOS 0 (unitsLine 120 "##".toList) =
      ⟨[], 0, .undefined⟩ := executeSequentialCommands_overrun _ _ _ (by decide)
  refine ⟨by decide, by decide, by decide, ?_, by decide, ?_, ?_, ?_, hrun, ?_⟩
  · simp only [dispatch]
    rw [if_neg (by decide), if_pos (by decide)]
  · rw [parseInput_writes]; decide
  · rw [parseInput_writes]; decide
  · rw [parseInput_inBounds]; decide
  · rw [hrun]; simp

/-- C6: on the command unit of 101 one-letter words separated by single spaces (201 bytes)
the argument loop of `executeCommand` keeps 101 tokens and stores at `args[100]`, `args[101]`
and `args[102]`, outside the `MAX_ARGS = 100` slots of the array: the behaviour is undefined,
and the run is not one `fork` followed by one `wait`, although the unit has tokens. -/
theorem executeCommand_array_overrun :
    (unitsLine 101 " ".toList).length = 201 ∧
    (fgets MAX_CMD_LEN (unitsLine 101 " ".toList ++ "\n".toList)).1 =
      some (unitsLine 101 " ".toList ++ "\n".toList) ∧
    stripNewline (unitsLine 101 " ".toList ++ "\n".toList) = unitsLine 101 " ".toList ∧
    dispatch shellOS 0 (unitsLine 101 " ".toList) =
      executeCommand shellOS 0 (unitsLine 101 " ".toList) ∧
    (tokens " ".toList (unitsLine 101 " ".toList)).length = 101 ∧
    MAX_ARGS ∈ (parseInput (unitsLine 101 " ".toList) " ".toList).writes ∧
    101 ∈ (parseInput (unitsLine 101 " ".toList) " ".toList).writes ∧
    102 ∈ (parseInput (unitsLine 101 " ".toList) " ".toList).writes ∧
    (parseInput (unitsLine 101 " ".toList) " ".toList).inBounds = false ∧
    executeCommand shellOS 0 (unitsLine 101 " ".toList) = ⟨[], 0, .undefined⟩ ∧
    executeCommand shellOS 0 (unitsLine 101 " ".toList) ≠
      ⟨[.fork .parent, .wait], 1, .returned⟩ := by
  have hrun : executeCommand shellOS 0 (unitsLine 101 " ".toList) = ⟨[], 0, .undefined⟩ := by
    rw [executeCommand_eq, if_neg (by decide)]
  refine ⟨by decide, by decide, by decide, ?_, by decide, ?_, ?_, ?_, ?_, hrun, ?_⟩
  · simp only [dispatch]
    rw [if_neg (by decide), if_neg (by decide), if_neg (by decide)]
  · rw [parseInput_writes]; decide
  · rw [parseInput_writes]; decide
  · rw [parseInput_writes]; decide
  · rw [parseInput_inBounds]; decide
  · rw [hrun]; decide

/-- C8: the split on the delimiter `&&` (resp. `##`) cuts at every single `&` (resp. `#`):
`a & b && c` is split into the three tokens `a `, ` b `, ` c`, so that the line spawns three
children, and `a & b`, which contains no `&&`, is split into two tokens. -/
theorem split_cuts_at_single_char :
    untilNull (parseInput "a & b && c".toList "&&".toList).slots =
      ["a ".toList, " b ".toList, " c".toList] ∧
    untilNull (parseInput "a & b && c".toList "&&".toList).slots ≠
      ["a & b ".toList, " c".toList] ∧
    dispatch shellOS 0 "a & b && c".toList =
      ⟨[.fork .parent, .fork .parent, .fork .parent, .wait, .wait, .wait], 3, .returned⟩ ∧
    ¬ "&&".toList <:+: "a & b".toList ∧
    untilNull (parseInput "a & b".toList "&&".toList).slots = ["a ".toList, " b".toList] ∧
    untilNull (parseInput "x # y ## z".toList "##".toList).slots =
      ["x ".toList, " y ".toList, " z".toList] := by
  refine ⟨?_, ?_, ?_, by decide, ?_, ?_⟩
  · rw [untilNull_parseInput _ _ (by decide)]; decide
  · rw [untilNull_parseInput _ _ (by decide)]; decide
  · simp only [dispatch]
    rw [if_pos (by decide),
      executeParallelCommands_shell shellOS (fun _ h => by cases h) _ _ (by decide)]
    decide
  · rw [untilNull_parseInput _ _ (by decide)]; decide
  · rw [untilNull_parseInput _ _ (by decide)]; decide

/-- C9 (counterexample): when `fork` fails on the plain line `ls`, `executeCommand` runs in
the shell process itself and calls `exit(1)`: the iteration of the loop of `main` does not
return to the prompt, the shell terminates with status 1. -/
theorem fork_failure_terminates_shell :
    dispatch forkFailOS 0 "ls".toList =
      ⟨[.fork .failed, .perror "Fork failed".toList, .exit 1], 1, .exited 1⟩ ∧
    (dispatch forkFailOS 0 "ls".toList).outcome ≠ .returned ∧
    mainIteration forkFailOS 0 "ls\n".toList =
      ⟨[.printf "/home$ ".toList, .fork .failed, .perror "Fork failed".toList, .exit 1],
       1, .exited 1⟩ := by
  have hd : dispatch forkFailOS 0 "ls".toList =
      ⟨[.fork .failed, .perror "Fork failed".toList, .exit 1], 1, .exited 1⟩ := by
    simp only [dispatch, executeCommand_eq]
    decide
  refine ⟨hd, ?_, ?_⟩
  · rw [hd]; simp
  · have hs : stripNewline "ls\n".toList = "ls".toList := by decide
    unfold mainIteration
    rw [show (fgets MAX_CMD_LEN "ls\n".toList).1 = some "ls\n".toList by decide]
    simp only [hs]
    rw [if_neg (by decide), if_neg (by decide), hd]
    decide

/-- C9 (as amended): on a line that overruns no array of the shell process (`lineFits`: at
most 98 tokens in the split of the selected strategy and in the argument split of every unit
the shell runs), along every execution of the shell process itself and whatever the operating
system answers, `dispatch` either returns to the loop of `main` or terminates the shell with
status 1 right after a failed `fork` in `executeCommand`; the latter happens only for a line
without `&&` that is handled by the sequential strategy or by the single-command executor,
and it happens there as soon as a `fork` fails.  The parallel and the redirection strategy
always return. -/
theorem shell_exits_only_on_fork_failure (os : OS) (n : Nat) (line : Str)
    (hcap : lineFits line) (hshell : ∀ k, os.fork k ≠ .child) :
    ((dispatch os n line).outcome = .returned ∨
      ((dispatch os n line).outcome = .exited 1 ∧
        forkFailure <:+ (dispatch os n line).trace ∧
        ¬ "&&".toList <:+: line ∧ ("##".toList <:+: line ∨ ¬ ">".toList <:+: line))) ∧
    (¬ "&&".toList <:+: line → ("##".toList <:+: line ∨ ¬ ">".toList <:+: line) →
      Event.fork .failed ∈ (dispatch os n line).trace →
      (dispatch os n line).outcome = .exited 1) := by
  obtain ⟨cpar, cseq, cred, cone⟩ := hcap
  simp only [dispatch, strstr_ne_none_iff]
  by_cases h1 : "&&".toList <:+: line
  · rw [if_pos h1]
    refine ⟨Or.inl ?_, fun h => absurd h1 h⟩
    rw [executeParallelCommands_shell os hshell n line (cpar h1)]
  · rw [if_neg h1]
    by_cases h2 : "##".toList <:+: line
    · rw [if_pos h2]
      have hseq : ReturnsOrForkExit (executeSequentialCommands os n line) := by
        rw [executeSequentialCommands_fits os n line (cseq h1 h2).1]
        exact sequentialLoop_returnsOrForkExit os hshell _ _ n (tokens_ne_nil _ _)
          (cseq h1 h2).2
      constructor
      · rcases hseq with ⟨ho, _⟩ | ⟨ho, hsuf⟩
        · exact Or.inl ho
        · exact Or.inr ⟨ho, hsuf, h1, Or.inl h2⟩
      · intro _ _ hmem
        rcases hseq with ⟨_, hclean⟩ | ⟨ho, _⟩
        · exact absurd hmem hclean
        · exact ho
    · rw [if_neg h2]
      by_cases h3 : ">".toList <:+: line
      · rw [if_pos h3]
        have hred : (executeCommandRedirection os n line).outcome = .returned := by
          rw [executeCommandRedirection_eq, if_pos (cred h1 h2 h3)]
          rcases tokens ">".toList line with _ | ⟨t, _ | ⟨u, ts⟩⟩
          · rfl
          · rfl
          · cases hf : os.fork n with
            | child => exact absurd hf (hshell n)
            | failed => rfl
            | parent => rfl
        refine ⟨Or.inl hred, ?_⟩
        intro _ hmode
        rcases hmode with h | h
        · exact absurd h h2
        · exact absurd h3 h
      · rw [if_neg h3]
        have hone : ReturnsOrForkExit (executeCommand os n line) := by
          rw [executeCommand_fits os n line (cone h1 h2 h3)]
          exact runArgs_returnsOrForkExit os n _ (hshell n)
        constructor
        · rcases hone with ⟨ho, _⟩ | ⟨ho, hsuf⟩
          · exact Or.inl ho
          · exact Or.inr ⟨ho, hsuf, h1, Or.inr h3⟩
        · intro _ _ hmem
          rcases hone with ⟨_, hclean⟩ | ⟨ho, _⟩
          · exact absurd hmem hclean
          · exact ho

/-- When every `fork` fails, the parallel line `pwd && ls` still returns to the loop, while
the sequential line `echo a ## echo b` ends the shell with status 1; both lines are within
the capacity of the arrays. -/
theorem shell_exits_only_on_fork_failure_witness :
    lineFits "pwd && ls".toList ∧ lineFits "echo a ## echo b".toList ∧
    (dispatch forkFailOS 0 "pwd && ls".toList).outcome = .returned ∧
    (dispatch forkFailOS 0 "echo a ## echo b".toList).outcome = .exited 1 := by
  have hshell : ∀ k, forkFailOS.fork k ≠ .child := fun _ h => by cases h
  have c1 : lineFits "pwd && ls".toList :=
    ⟨fun _ => by decide, fun h => absurd (by decide) h, fun h => absurd (by decide) h,
      fun h => absurd (by decide) h⟩
  have c2 : lineFits "echo a ## echo b".toList :=
    ⟨fun h => absurd h (by decide), fun _ _ => ⟨by decide, by decide⟩,
      fun _ h => absurd (by decide) h, fun _ h => absurd (by decide) h⟩
  have h1 := (shell_exits_only_on_fork_failure forkFailOS 0 "pwd && ls".toList c1 hshell).1
  have h2 := (shell_exits_only_on_fork_failure forkFailOS 0 "echo a ## echo b".toList
    c2 hshell).2 (by decide) (Or.inl (by decide))
    (by
      simp only [dispatch]
      rw [if_neg (by decide), if_pos (by decide),
        executeSequentialCommands_fits _ _ _ (by decide)]
      have : tokens "##".toList "echo a ## echo b".toList
          = ["echo a ".toList, " echo b".toList] := by decide
      rw [this]
      simp only [List.map_cons, List.map_nil, List.cons_append, List.nil_append]
      rw [sequentialLoop_cons _ _ _ _ (by decide) (by decide)]
      have ha : tokens " ".toList "echo a ".toList = ["echo".toList, "a".toList] := by decide
      rw [ha, runArgs_failed _ _ _ _ rfl, andThen_stopped _ _ (by simp)]
      simp)
  refine ⟨c1, c2, ?_, h2⟩
  rcases h1 with h | ⟨_, _, hno, _⟩
  · exact h
  · exact absurd (by decide) hno

/-- C10: a line of 99 one-letter arguments (197 bytes, so `fgets` delivers it whole) reaches
`executeCommand`, whose argument loop keeps 99 tokens and then stores `NULL` at index 99 and
at index 100, which is not below `MAX_ARGS = 100`. -/
theorem args_store_out_of_range :
    manyArgs.length = 197 ∧ manyArgs.length ≤ MAX_CMD_LEN - 1 ∧
    (fgets MAX_CMD_LEN (manyArgs ++ "\n".toList)).1 = some (manyArgs ++ "\n".toList) ∧
    stripNewline (manyArgs ++ "\n".toList) = manyArgs ∧
    dispatch shellOS 0 manyArgs = executeCommand shellOS 0 manyArgs ∧
    (argv manyArgs).length = 99 ∧
    MAX_ARGS ∈ (parseInput manyArgs " ".toList).writes ∧
    ¬ (∀ w ∈ (parseInput manyArgs " ".toList).writes, w < MAX_ARGS) ∧
    (parseInput manyArgs " ".toList).inBounds = false ∧
    executeCommand shellOS 0 manyArgs = ⟨[], 0, .undefined⟩ := by
  have hlen : (tokens " ".toList manyArgs).length = 99 := by decide
  have hmem : MAX_ARGS ∈ (parseInput manyArgs " ".toList).writes := by
    have := (parseInput_max_write manyArgs " ".toList).1
    rw [hlen] at this
    exact this
  refine ⟨by decide, by decide, by decide, by decide, ?_, ?_, hmem, ?_, ?_, ?_⟩
  · simp only [dispatch]
    rw [if_neg (by decide), if_neg (by decide), if_neg (by decide)]
  · rw [argv_eq_tokens _ (by decide)]; exact hlen
  · intro h
    exact Nat.lt_irrefl _ (h _ hmem)
  · rw [parseInput_inBounds]; decide
  · rw [executeCommand_eq, if_neg (by decide)]

end Shell
